import Mathlib

/-!
Verification development for the candidate-extraction engine and the lazy
document chunking layer of the llm_data_kit repository
(src/core/answer_extractor.py, src/core/optimized_answer_extractor.py,
src/core/optimized_document_parser.py, src/core/document_parser.py).

Modelling conventions of the shallow embedding:
  * Python strings are modelled as `List Char` (ASCII character set; for
    text files one byte is one character, matching the source's use of
    byte offsets as character offsets).
  * Python floats are modelled as `ℚ`.  All float literals appearing in
    the source (0.1 .. 0.9, thresholds 0.7, 1.0) are sums of decimals
    whose float comparisons coincide with the rational ones at every
    comparison performed by the code.
  * Python ints that are always nonnegative in the modelled code paths
    are modelled as `ℕ`; `max(0, a - b)` becomes truncated subtraction.
  * Regular expressions are modelled by hand-rolled matchers that follow
    the backtracking semantics of the specific patterns in the source
    (documented at each definition).
-/

namespace LDK

/-- Characters treated as whitespace by Python (ASCII range): the class
matched by a regex whitespace class and stripped by the strip method. -/
def isSpaceChar (c : Char) : Bool :=
  c = ' ' || c = '\t' || c = '\n' || c = '\x0b' || c = '\x0c' || c = '\r'

/-- Characters of the sentence-terminator class, the bracket class of
dot, bang and question mark used throughout answer_extractor.py. -/
def isEnderChar (c : Char) : Bool :=
  c = '.' || c = '!' || c = '?'

/-- ASCII decimal digit. -/
def isAsciiDigit (c : Char) : Bool :=
  '0' ≤ c && c ≤ '9'

/-- ASCII uppercase letter, the class of the header filter in
AnswerExtractor._filter_candidates. -/
def isAsciiUpper (c : Char) : Bool :=
  'A' ≤ c && c ≤ 'Z'

/-- ASCII lowercase letter. -/
def isAsciiLower (c : Char) : Bool :=
  'a' ≤ c && c ≤ 'z'

/-- ASCII letter. -/
def isAsciiAlpha (c : Char) : Bool :=
  isAsciiUpper c || isAsciiLower c

/-- Regex word character (letter, digit or underscore, ASCII range). -/
def isWordChar (c : Char) : Bool :=
  isAsciiDigit c || isAsciiUpper c || isAsciiLower c || c = '_'

/-- ASCII lowercasing, used to model case-insensitive regex matching. -/
def lowerChar (c : Char) : Char :=
  if isAsciiUpper c then Char.ofNat (c.toNat + 32) else c

/-- Lowercase a whole string. -/
def lowerStr (l : List Char) : List Char :=
  l.map lowerChar

/-- Translation of the strip method: remove leading and trailing
whitespace. -/
def stripChars (l : List Char) : List Char :=
  ((l.dropWhile isSpaceChar).reverse.dropWhile isSpaceChar).reverse

/-- Python slicing text with nonnegative bounds: the characters of
positions s (inclusive) to e (exclusive), clipped to the string. -/
def listSlice (l : List Char) (s e : Nat) : List Char :=
  (l.drop s).take (e - s)

/-- Scan of the find method of Python strings; the fuel argument only
bounds the recursion (each step advances the start cursor by one and
the scan stops past the end, so any fuel of at least the text length
plus one never runs out) and keeps the recursion structural, so that
proofs can evaluate the definition. -/
def findFromAux (needle hay : List Char) : Nat → Nat → Option Nat
  | _, 0 => none
  | s, fuel + 1 =>
    if s ≤ hay.length then
      if needle.isPrefixOf (hay.drop s) then some s
      else findFromAux needle hay (s + 1) fuel
    else none

/-- Translation of the find method of Python strings with a start
argument: the least index at or after s where needle occurs, none when
there is no occurrence (Python returns -1 there). -/
def findFrom (needle hay : List Char) (s : Nat) : Option Nat :=
  findFromAux needle hay s (hay.length + 1)

/-- Word-boundary test: needle occurs at position i of hay with a regex
word boundary on both sides (the pattern of a boundary-delimited
alternation of literal words). -/
def wordAt (w hay : List Char) (i : Nat) : Bool :=
  w.isPrefixOf (hay.drop i) &&
    (decide (i = 0) || !isWordChar (hay.getD (i - 1) ' ')) &&
    (decide (hay.length ≤ i + w.length) || !isWordChar (hay.getD (i + w.length) ' '))

/-- Search for a boundary-delimited occurrence of the literal word w
anywhere in hay (the effect of re.search on one alternative). -/
def containsWord (w hay : List Char) : Bool :=
  (List.range (hay.length + 1)).any (wordAt w hay)

/-- Search for a boundary-delimited occurrence of any of the words. -/
def containsAnyWord (ws : List (List Char)) (hay : List Char) : Bool :=
  ws.any (containsWord · hay)

/-- Modal and copula words of the first content check of
AnswerExtractor._score_sentence (matched case-insensitively). -/
def modalWords : List (List Char) :=
  (["is", "are", "was", "were", "will", "can", "could", "should", "must"]).map
    String.toList

/-- Causal connectives of the second content check of _score_sentence. -/
def causalWords : List (List Char) :=
  (["because", "since", "due to", "as a result"]).map String.toList

/-- Discourse connectives of the third content check of _score_sentence. -/
def discourseWords : List (List Char) :=
  (["therefore", "thus", "consequently", "however"]).map String.toList

/-- Translation of AnswerExtractor._score_sentence.  The three content
checks run case-insensitively, modelled by lowercasing the sentence;
the final clamp keeps the score at most 1.  The branch structure of the
source is kept: the +0.2 length bonus branch shadows the minimum-length
rejection (an elif in the source), so a sentence of length 50..200 is
never rejected even when shorter than min_answer_length. -/
def score_sentence (min_answer_length : Nat) (sentence : List Char) : ℚ :=
  let body : ℚ → ℚ := fun base =>
    let low := lowerStr sentence
    let s1 := base + (if containsAnyWord modalWords low then 1/10 else 0)
    let s2 := s1 + (if containsAnyWord causalWords low then 1/10 else 0)
    let s3 := s2 + (if containsAnyWord discourseWords low then 1/10 else 0)
    let s4 := s3 - (if (stripChars sentence).getLast? = some '?' then 3/10 else 0)
    let s5 := s4 + (if 3 < sentence.count ',' then 1/10 else 0)
    min s5 1
  if 50 ≤ sentence.length ∧ sentence.length ≤ 200 then body (1/2 + 1/5)
  else if sentence.length < min_answer_length then 0
  else body (1/2)

/-- Split a string into the pieces around maximal runs of characters
satisfying p: the effect of re.split with a one-or-more bracket class
(used with the sentence-terminator class by _score_paragraph). -/
def splitOnRunsAux (p : Char → Bool) : Nat → List Char → List Char → List (List Char)
  | 0, cur, _ => [cur.reverse]
  | _ + 1, cur, [] => [cur.reverse]
  | fuel + 1, cur, c :: rest =>
    if p c then cur.reverse :: splitOnRunsAux p fuel [] (rest.dropWhile p)
    else splitOnRunsAux p fuel (c :: cur) rest

/-- Split on maximal runs of characters satisfying p; the fuel (one
more than the length, never exhausted since every step shortens the
remaining text) keeps the recursion structural. -/
def splitOnRuns (p : Char → Bool) (l : List Char) : List (List Char) :=
  splitOnRunsAux p (l.length + 1) [] l

/-- Translation of AnswerExtractor._score_paragraph.  The sentence count
is the number of pieces of a split on terminator runs; the elif shape of
the source is kept (the +0.3 length-band branch shadows the over-length
rejection). -/
def score_paragraph (max_answer_length : Nat) (paragraph : List Char) : ℚ :=
  let body : ℚ → ℚ := fun base =>
    let sentence_count := (splitOnRuns isEnderChar paragraph).length
    let s1 := base + (if 2 ≤ sentence_count ∧ sentence_count ≤ 5 then 1/5 else 0)
    let s2 := s1 + (if paragraph.count '\n' = 0 then 1/10 else 0)
    min s2 1
  if 100 ≤ paragraph.length ∧ paragraph.length ≤ 400 then body (2/5 + 3/10)
  else if max_answer_length < paragraph.length then 0
  else body (2/5)

/-- Translation of AnswerExtractor._score_list_item. -/
def score_list_item (item : List Char) : ℚ :=
  let s1 : ℚ := 3/5
  let s2 := s1 + (if 30 ≤ item.length ∧ item.length ≤ 150 then 1/5 else 0)
  let s3 := s2 - (if (("...").toList.isSuffixOf item) || (([':']).isSuffixOf item)
    then 3/10 else 0)
  min s3 1

/-- Translation of AnswerExtractor._score_definition. -/
def score_definition (definition : List Char) : ℚ :=
  let s1 : ℚ := 4/5
  let s2 := s1 + (if 40 ≤ definition.length ∧ definition.length ≤ 200 then 1/10 else 0)
  min s2 1

/-- Statistics test of _score_fact at one start position: a digit run
followed either directly by a percent sign, or by whitespace and one of
the scale words.  Greedy runs with backtracking degenerate to the
maximal-run tests used here because a shorter digit run is followed by a
digit and a shorter whitespace run is followed by whitespace. -/
def statAt (hay : List Char) (i : Nat) : Bool :=
  let r := hay.drop i
  let ds := r.takeWhile isAsciiDigit
  let r2 := r.drop ds.length
  let ws := r2.takeWhile isSpaceChar
  let r3 := r2.drop ws.length
  let scaleWord : Bool :=
    ("percent").toList.isPrefixOf r3 || ("million").toList.isPrefixOf r3 ||
      ("billion").toList.isPrefixOf r3 || ("thousand").toList.isPrefixOf r3
  decide (ds ≠ []) && ((r2.headD ' ' = '%') || (decide (ws ≠ []) && scaleWord))

/-- Search of the statistics pattern of _score_fact anywhere in the fact
(case-sensitive: the source passes no ignore-case flag here). -/
def hasStat (hay : List Char) : Bool :=
  (List.range (hay.length + 1)).any (statAt hay)

/-- Translation of AnswerExtractor._score_fact. -/
def score_fact (fact : List Char) : ℚ :=
  let s1 : ℚ := 7/10
  let s2 := s1 + (if 30 ≤ fact.length ∧ fact.length ≤ 150 then 1/10 else 0)
  let s3 := s2 + (if hasStat fact then 1/10 else 0)
  min s3 1

/-- Translation of AnswerExtractor._score_procedure. -/
def score_procedure (procedure : List Char) : ℚ :=
  let s1 : ℚ := 3/5
  let s2 := s1 + (if 40 ≤ procedure.length ∧ procedure.length ≤ 200 then 1/5 else 0)
  min s2 1

/-- Translation of the AnswerCandidate dataclass of answer_extractor.py.
Positions are character offsets, the confidence a score in the unit
interval, the method one of the strategy tags. -/
structure AnswerCandidate where
  text : List Char
  start_pos : Nat
  end_pos : Nat
  confidence : ℚ
  extraction_method : String
  context : List Char := []
deriving DecidableEq

/-- Mutable extraction settings of AnswerExtractor, with the defaults
set in its constructor. -/
structure ExtractorConfig where
  min_answer_length : Nat := 20
  max_answer_length : Nat := 500
  min_confidence : ℚ := 3/10
deriving DecidableEq

/-- Splitter for the sentence pattern (a one-or-more run of sentence
terminators followed by a one-or-more run of whitespace).  A terminator
run not followed by whitespace cannot match any suffix of itself either
(backtracking into the run puts a terminator where the whitespace class
is required), so the scan treats the whole run as ordinary text. -/
def splitSentencesAux : Nat → List Char → List Char → List (List Char)
  | 0, cur, _ => [cur.reverse]
  | _ + 1, cur, [] => [cur.reverse]
  | fuel + 1, cur, c :: rest =>
    if isEnderChar c then
      let run := (c :: rest).takeWhile isEnderChar
      let after := (c :: rest).dropWhile isEnderChar
      if after.headD 'x' |> isSpaceChar then
        cur.reverse :: splitSentencesAux fuel [] (after.dropWhile isSpaceChar)
      else
        splitSentencesAux fuel (run.reverse ++ cur) after
    else
      splitSentencesAux fuel (c :: cur) rest

/-- Split of re.split with the sentence pattern of _extract_sentences;
the fuel (one more than the length, never exhausted since every step
shortens the remaining text) keeps the recursion structural. -/
def splitSentencePattern (text : List Char) : List (List Char) :=
  splitSentencesAux (text.length + 1) [] text

/-- Index of the last newline of a list, none when there is no newline. -/
def lastNewlineIdx (l : List Char) : Option Nat :=
  match l.reverse.findIdx? (· = '\n') with
  | some j => some (l.length - 1 - j)
  | none => none

/-- Splitter for the paragraph pattern (newline, optional whitespace,
newline) of _extract_paragraphs.  At a newline the greedy optional
whitespace run backtracks to the last newline of the maximal whitespace
run that follows; when that run holds no further newline there is no
match at this position and the character is ordinary text. -/
def splitParagraphsAux : Nat → List Char → List Char → List (List Char)
  | 0, cur, _ => [cur.reverse]
  | _ + 1, cur, [] => [cur.reverse]
  | fuel + 1, cur, c :: rest =>
    if c = '\n' then
      match lastNewlineIdx (rest.takeWhile isSpaceChar) with
      | some k => cur.reverse :: splitParagraphsAux fuel [] (rest.drop (k + 1))
      | none => splitParagraphsAux fuel (c :: cur) rest
    else
      splitParagraphsAux fuel (c :: cur) rest

/-- Split of re.split with the paragraph pattern of _extract_paragraphs;
the fuel (one more than the length, never exhausted since every step
shortens the remaining text) keeps the recursion structural. -/
def splitParagraphPattern (text : List Char) : List (List Char) :=
  splitParagraphsAux (text.length + 1) [] text

/-- Position-reconstruction loop of AnswerExtractor._extract_sentences:
strip each split piece, search for it in the text from the running
cursor, score it and keep it when the score is positive. -/
def sentencesLoop (min_answer_length : Nat) (text : List Char) :
    List (List Char) → Nat → List AnswerCandidate
  | [], _ => []
  | piece :: rest, current_pos =>
    let s := stripChars piece
    if s = [] then sentencesLoop min_answer_length text rest current_pos
    else
      match findFrom s text current_pos with
      | none => sentencesLoop min_answer_length text rest (current_pos + s.length + 1)
      | some start_pos =>
        let end_pos := start_pos + s.length
        let confidence := score_sentence min_answer_length s
        let keep : List AnswerCandidate :=
          if 0 < confidence then
            [{ text := s, start_pos := start_pos, end_pos := end_pos,
               confidence := confidence, extraction_method := "sentences" }]
          else []
        keep ++ sentencesLoop min_answer_length text rest (end_pos + 1)

/-- Translation of AnswerExtractor._extract_sentences. -/
def extract_sentences (min_answer_length : Nat) (text : List Char) :
    List AnswerCandidate :=
  sentencesLoop min_answer_length text (splitSentencePattern text) 0

/-- Position-reconstruction loop of AnswerExtractor._extract_paragraphs. -/
def paragraphsLoop (min_answer_length max_answer_length : Nat) (text : List Char) :
    List (List Char) → Nat → List AnswerCandidate
  | [], _ => []
  | piece :: rest, current_pos =>
    let p := stripChars piece
    if p = [] then paragraphsLoop min_answer_length max_answer_length text rest current_pos
    else
      match findFrom p text current_pos with
      | none =>
        paragraphsLoop min_answer_length max_answer_length text rest
          (current_pos + p.length + 2)
      | some start_pos =>
        let end_pos := start_pos + p.length
        let confidence := score_paragraph max_answer_length p
        let keep : List AnswerCandidate :=
          if 0 < confidence ∧ min_answer_length ≤ p.length ∧
              p.length ≤ max_answer_length then
            [{ text := p, start_pos := start_pos, end_pos := end_pos,
               confidence := confidence, extraction_method := "paragraphs" }]
          else []
        keep ++ paragraphsLoop min_answer_length max_answer_length text rest (end_pos + 2)

/-- Translation of AnswerExtractor._extract_paragraphs (the two length
settings it reads off the extractor instance are passed explicitly). -/
def extract_paragraphs (min_answer_length max_answer_length : Nat) (text : List Char) :
    List AnswerCandidate :=
  paragraphsLoop min_answer_length max_answer_length text (splitParagraphPattern text) 0

/-- Tail of a list-item line after its marker: the model of the marker
patterns ending in a one-or-more whitespace run and a captured
one-or-more dot run anchored at the line end.  With a non-whitespace
character after the run the greedy whitespace takes the whole run and
the capture is the rest; on an all-whitespace tail of length at least
two the capture backtracks to the last character; otherwise no match. -/
def restAfterMarker (r : List Char) : Option (List Char) :=
  match r with
  | [] => none
  | c :: _ =>
    if isSpaceChar c then
      let j := (r.takeWhile isSpaceChar).length
      if j < r.length then some (r.drop j)
      else if 2 ≤ r.length then some (r.drop (r.length - 1))
      else none
    else none

/-- Bullet list marker of _extract_list_items (leading whitespace, one
of dash, star, plus). -/
def matchBullet (line : List Char) : Option (List Char) :=
  match line.dropWhile isSpaceChar with
  | c :: rest => if c = '-' || c = '*' || c = '+' then restAfterMarker rest else none
  | [] => none

/-- Numbered list marker of _extract_list_items (digit run, dot). -/
def matchNumbered (line : List Char) : Option (List Char) :=
  let r := line.dropWhile isSpaceChar
  let ds := r.takeWhile isAsciiDigit
  if ds = [] then none
  else
    match r.drop ds.length with
    | '.' :: rest => restAfterMarker rest
    | _ => none

/-- Lettered list marker of _extract_list_items (one letter, dot). -/
def matchLettered (line : List Char) : Option (List Char) :=
  match line.dropWhile isSpaceChar with
  | c :: '.' :: rest => if isAsciiAlpha c then restAfterMarker rest else none
  | _ => none

/-- Unicode-bullet list marker of _extract_list_items. -/
def matchUnicodeBullet (line : List Char) : Option (List Char) :=
  match line.dropWhile isSpaceChar with
  | c :: rest => if c = '•' then restAfterMarker rest else none
  | [] => none

/-- Translation of AnswerExtractor._extract_list_items: every line is
tried against all four marker patterns; an accepted item is located by
a find over the whole text without a start cursor. -/
def extract_list_items (min_answer_length max_answer_length : Nat) (text : List Char) :
    List AnswerCandidate :=
  (text.splitOn '\n').flatMap fun line =>
    ([matchBullet line, matchNumbered line, matchLettered line,
      matchUnicodeBullet line]).flatMap fun g =>
      match g with
      | none => []
      | some grp =>
        let item := stripChars grp
        if min_answer_length ≤ item.length ∧
            item.length ≤ max_answer_length then
          match findFrom item text 0 with
          | some start_pos =>
            [{ text := item, start_pos := start_pos,
               end_pos := start_pos + item.length,
               confidence := score_list_item item, extraction_method := "lists" }]
          | none => []
        else []

/-- Backtracking matcher: applied to a suffix of the text, it returns
the possible remainders after a match at its head, ordered by the
backtracking priority of the regex engine (first element is the
remainder the engine commits to). -/
def Matcher : Type :=
  List Char → List (List Char)

/-- Matcher of the empty pattern. -/
def mEps : Matcher :=
  fun l => [l]

/-- Matcher of a literal (already lowercased where the source passes
the ignore-case flag). -/
def mLit (s : List Char) : Matcher :=
  fun l => if s.isPrefixOf l then [l.drop s.length] else []

/-- Matcher of a single character class. -/
def mCls (p : Char → Bool) : Matcher :=
  fun l =>
    match l with
    | c :: rest => if p c then [rest] else []
    | [] => []

/-- Matcher of a lazy one-or-more repetition of a character class:
remainders from the shortest take (one character) to the whole run. -/
def mPlusLazy (p : Char → Bool) : Matcher :=
  fun l =>
    let r := (l.takeWhile p).length
    (List.range r).map fun k => l.drop (k + 1)

/-- Matcher of a greedy one-or-more repetition of a character class:
remainders from the whole run down to one character. -/
def mPlusGreedy (p : Char → Bool) : Matcher :=
  fun l =>
    let r := (l.takeWhile p).length
    (List.range r).map fun k => l.drop (r - k)

/-- Matcher of an exact-count repetition of a character class (the
four-digit year of a fact pattern). -/
def mRep (p : Char → Bool) (n : Nat) : Matcher :=
  fun l => if (l.take n).length = n ∧ (l.take n).all p then [l.drop n] else []

/-- Sequencing of matchers; the remainder order realises depth-first
backtracking. -/
def mSeq (m1 m2 : Matcher) : Matcher :=
  fun l => (m1 l).flatMap m2

/-- Chain of matchers in sequence. -/
def mChain (ms : List Matcher) : Matcher :=
  ms.foldr mSeq mEps

/-- Character class of the regex dot (anything but a newline; the
source never sets the dot-all flag). -/
def isDotChar (c : Char) : Bool :=
  c ≠ '\n'

/-- Length of the match the engine commits to at the head of l, none
when the pattern does not match here. -/
def matchHere (m : Matcher) (l : List Char) : Option Nat :=
  (m l).head?.map fun rem => l.length - rem.length

/-- Scan of re.finditer: leftmost matches, non-overlapping, resuming
after each match (advancing one position on an empty match, which none
of the modelled patterns can produce). -/
def finditerAux (m : Matcher) (text : List Char) : Nat → Nat → List (Nat × Nat)
  | _, 0 => []
  | i, fuel + 1 =>
    if i ≤ text.length then
      match matchHere m (text.drop i) with
      | some len =>
        (i, i + len) :: finditerAux m text (i + max len 1) fuel
      | none => finditerAux m text (i + 1) fuel
    else []

/-- All matches of a pattern over a text, as start and end offsets; the
fuel (one more than the length, never exhausted since the scan cursor
advances at every step and stops past the end) keeps the recursion
structural. -/
def finditer (m : Matcher) (text : List Char) : List (Nat × Nat) :=
  finditerAux m text 0 (text.length + 1)

/-- Matchers of the six definition patterns of
AnswerExtractor._extract_definitions, in source order; literals are
lowercased since the source matches case-insensitively. -/
def definitionMatchers : List Matcher :=
  let tail1 : List Matcher :=
    [mPlusGreedy isSpaceChar, mPlusLazy isDotChar, mCls isEnderChar]
  [ mChain ([mPlusLazy isDotChar, mPlusGreedy isSpaceChar, mLit (("is").toList)] ++ tail1),
    mChain ([mPlusLazy isDotChar, mPlusGreedy isSpaceChar, mLit (("are").toList)] ++ tail1),
    mChain ([mPlusLazy isDotChar, mPlusGreedy isSpaceChar, mLit (("means").toList)] ++ tail1),
    mChain ([mPlusLazy isDotChar, mPlusGreedy isSpaceChar, mLit (("refers to").toList)] ++ tail1),
    mChain [mPlusLazy isDotChar, mLit ([':']), mPlusGreedy isSpaceChar,
      mPlusLazy isDotChar, mCls isEnderChar],
    mChain ([mPlusLazy isDotChar, mPlusGreedy isSpaceChar,
      mLit (("can be defined as").toList)] ++ tail1) ]

/-- Matchers of the seven fact patterns of _extract_facts. -/
def factMatchers : List Matcher :=
  let capture : List Matcher := [mPlusLazy isDotChar, mCls isEnderChar]
  [ mChain ([mLit (("according to").toList), mPlusGreedy isSpaceChar, mPlusLazy isDotChar,
      mLit ([',']), mPlusGreedy isSpaceChar] ++ capture),
    mChain ([mLit (("research shows").toList), mPlusGreedy isSpaceChar] ++ capture),
    mChain ([mLit (("studies indicate").toList), mPlusGreedy isSpaceChar] ++ capture),
    mChain ([mLit (("it is known that").toList), mPlusGreedy isSpaceChar] ++ capture),
    mChain ([mLit (("the fact is").toList), mPlusGreedy isSpaceChar] ++ capture),
    mChain ([mPlusGreedy isAsciiDigit, mLit (['%']), mPlusGreedy isSpaceChar,
      mLit (("of").toList), mPlusGreedy isSpaceChar] ++ capture),
    mChain ([mLit (("in").toList), mPlusGreedy isSpaceChar, mRep isAsciiDigit 4,
      mLit ([',']), mPlusGreedy isSpaceChar] ++ capture) ]

/-- Matchers of the six procedure patterns of _extract_procedures. -/
def procedureMatchers : List Matcher :=
  let capture : List Matcher := [mPlusLazy isDotChar, mCls isEnderChar]
  [ mChain ([mLit (("first,").toList), mPlusGreedy isSpaceChar] ++ capture),
    mChain ([mLit (("then,").toList), mPlusGreedy isSpaceChar] ++ capture),
    mChain ([mLit (("next,").toList), mPlusGreedy isSpaceChar] ++ capture),
    mChain ([mLit (("finally,").toList), mPlusGreedy isSpaceChar] ++ capture),
    mChain ([mLit (("to").toList), mPlusGreedy isSpaceChar, mPlusLazy isDotChar,
      mLit ([',']), mPlusGreedy isSpaceChar] ++ capture),
    mChain ([mLit (("in order to").toList), mPlusGreedy isSpaceChar, mPlusLazy isDotChar,
      mLit ([',']), mPlusGreedy isSpaceChar] ++ capture) ]

/-- Shared shape of _extract_definitions, _extract_facts and
_extract_procedures: run each pattern over the lowercased text (the
effect of the ignore-case flag), take the whole-match span, strip the
matched slice of the original text, keep it under the length filter. -/
def extractByPatterns (min_answer_length max_answer_length : Nat) (ms : List Matcher)
    (score : List Char → ℚ) (tag : String) (text : List Char) :
    List AnswerCandidate :=
  let low := lowerStr text
  ms.flatMap fun m =>
    (finditer m low).flatMap fun se =>
      let matched := stripChars (listSlice text se.1 se.2)
      if min_answer_length ≤ matched.length ∧
          matched.length ≤ max_answer_length then
        [{ text := matched, start_pos := se.1, end_pos := se.2,
           confidence := score matched, extraction_method := tag }]
      else []

/-- Translation of AnswerExtractor._extract_definitions. -/
def extract_definitions (min_answer_length max_answer_length : Nat) (text : List Char) :
    List AnswerCandidate :=
  extractByPatterns min_answer_length max_answer_length definitionMatchers
    score_definition "definitions" text

/-- Translation of AnswerExtractor._extract_facts. -/
def extract_facts (min_answer_length max_answer_length : Nat) (text : List Char) :
    List AnswerCandidate :=
  extractByPatterns min_answer_length max_answer_length factMatchers
    score_fact "facts" text

/-- Translation of AnswerExtractor._extract_procedures. -/
def extract_procedures (min_answer_length max_answer_length : Nat) (text : List Char) :
    List AnswerCandidate :=
  extractByPatterns min_answer_length max_answer_length procedureMatchers
    score_procedure "procedures" text

/-- Overlap test of _deduplicate_candidates: the shared span length over
the shorter text length exceeds 0.7 (rationally: 10 times the overlap
exceeds 7 times the shorter length, with a zero shorter length giving
no overlap).  Truncated subtraction realises the clamp of the overlap
length at zero. -/
def overlapAboveThreshold (c e : AnswerCandidate) : Bool :=
  let overlap_length := min c.end_pos e.end_pos - max c.start_pos e.start_pos
  let min_length := min c.text.length e.text.length
  decide (0 < min_length) && decide (7 * min_length < 10 * overlap_length)

/-- Removal of the first occurrence of a value from a list (the list
remove method; the removed element is always present at the call site
in the source). -/
def removeFirst (l : List AnswerCandidate) (e : AnswerCandidate) :
    List AnswerCandidate :=
  match l with
  | [] => []
  | x :: xs => if x = e then xs else removeFirst xs e |>.cons x

/-- One step of the accumulator loop of _deduplicate_candidates: scan
the accepted list in order for the first candidate with overlap above
the threshold; replace it (appending at the end) when the newcomer has
strictly higher confidence, drop the newcomer otherwise, and accept the
newcomer at the end when no overlap is found. -/
def dedupInsert (acc : List AnswerCandidate) (c : AnswerCandidate) :
    List AnswerCandidate :=
  match acc.find? (fun e => overlapAboveThreshold c e) with
  | some e =>
    if e.confidence < c.confidence then removeFirst acc e ++ [c] else acc
  | none => acc ++ [c]

/-- Stable insertion into a list sorted by ascending start position:
the new element goes before the first strictly larger start, matching
the stability of the list sort of Python. -/
def insertByStart (c : AnswerCandidate) : List AnswerCandidate → List AnswerCandidate
  | [] => [c]
  | x :: xs => if x.start_pos < c.start_pos then x :: insertByStart c xs else c :: x :: xs

/-- Stable sort by ascending start position (the sort call opening
_deduplicate_candidates). -/
def sortByStart (l : List AnswerCandidate) : List AnswerCandidate :=
  l.foldr insertByStart []

/-- Translation of AnswerExtractor._deduplicate_candidates. -/
def deduplicate_candidates (candidates : List AnswerCandidate) :
    List AnswerCandidate :=
  (sortByStart candidates).foldl dedupInsert []

/-- Acceptance test of _filter_candidates for one candidate: at least
the minimum confidence, length inside the configured bounds, enough
residue after deleting non-word non-space characters (at least 0.7
times the minimum length, rationally 10 times the stripped residue
length at least 7 times the minimum length), and no run of five or more
consecutive uppercase letters. -/
def hasUpperRunAux : List Char → Nat → Bool
  | [], _ => false
  | c :: rest, k =>
    if isAsciiUpper c then
      if 5 ≤ k + 1 then true else hasUpperRunAux rest (k + 1)
    else hasUpperRunAux rest 0

/-- Search of the five-or-more uppercase run pattern of
_filter_candidates. -/
def hasCapsRun (l : List Char) : Bool :=
  hasUpperRunAux l 0

/-- Single-candidate acceptance test of _filter_candidates. -/
def passesFilters (cfg : ExtractorConfig) (c : AnswerCandidate) : Bool :=
  !decide (c.confidence < cfg.min_confidence) &&
    !decide (c.text.length < cfg.min_answer_length) &&
    !decide (cfg.max_answer_length < c.text.length) &&
    !decide (10 * (stripChars (c.text.filter fun ch => isWordChar ch || isSpaceChar ch)).length
      < 7 * cfg.min_answer_length) &&
    !hasCapsRun c.text

/-- Translation of AnswerExtractor._filter_candidates. -/
def filter_candidates (cfg : ExtractorConfig) (candidates : List AnswerCandidate) :
    List AnswerCandidate :=
  candidates.filter (passesFilters cfg)

/-- Stable insertion into a list sorted by descending confidence: the
new element goes before the first element of less or equal confidence,
matching the stability of the reverse sort of Python. -/
def insertByConfDesc (c : AnswerCandidate) :
    List AnswerCandidate → List AnswerCandidate
  | [] => [c]
  | x :: xs =>
    if c.confidence < x.confidence then x :: insertByConfDesc c xs else c :: x :: xs

/-- Stable sort by descending confidence (the ranking step closing
extract_answers). -/
def sortByConfDesc (l : List AnswerCandidate) : List AnswerCandidate :=
  l.foldr insertByConfDesc []

/-- Strategy dispatch of the method loop of extract_answers; an
unknown method tag contributes nothing. -/
def runMethod (min_answer_length max_answer_length : Nat) (text : List Char)
    (method : String) : List AnswerCandidate :=
  if method = "sentences" then extract_sentences min_answer_length text
  else if method = "paragraphs" then
    extract_paragraphs min_answer_length max_answer_length text
  else if method = "lists" then
    extract_list_items min_answer_length max_answer_length text
  else if method = "definitions" then
    extract_definitions min_answer_length max_answer_length text
  else if method = "facts" then
    extract_facts min_answer_length max_answer_length text
  else if method = "procedures" then
    extract_procedures min_answer_length max_answer_length text
  else []

/-- Translation of AnswerExtractor.extract_answers: run the requested
strategies in order, deduplicate, filter, and rank by descending
confidence. -/
def extract_answers (cfg : ExtractorConfig) (text : List Char)
    (methods : List String) : List AnswerCandidate :=
  sortByConfDesc (filter_candidates cfg
    (deduplicate_candidates (methods.flatMap
      (runMethod cfg.min_answer_length cfg.max_answer_length text))))

/-- Translation of the DocumentChunk dataclass of
optimized_document_parser.py; the lazily populated content and loaded
flag are handled functionally by the loaders below. -/
structure DocumentChunk where
  chunk_id : Nat
  page_start : Nat
  page_end : Nat
  char_start : Nat
  char_end : Nat
deriving DecidableEq

/-- Chunk list built by the while loop of
OptimizedDocumentParser._parse_text_lazy: character ranges of at most
maxChars characters until the file size is reached.  The source loops
forever when maxChars is zero (the constructor default is 50000); the
guard makes that degenerate case return no chunks here. -/
def buildTextChunksAux (maxChars size : Nat) : Nat → Nat → Nat → List DocumentChunk
  | _, _, 0 => []
  | pos, cid, fuel + 1 =>
    if pos < size ∧ 0 < maxChars then
      let e := min (pos + maxChars) size
      ⟨cid, 0, 0, pos, e⟩ :: buildTextChunksAux maxChars size e (cid + 1) fuel
    else []

/-- Chunk list of a lazily parsed text file; the fuel (one more than
the size, never exhausted since every chunk advances the cursor) keeps
the recursion structural. -/
def buildTextChunks (maxChars size pos cid : Nat) : List DocumentChunk :=
  buildTextChunksAux maxChars size pos cid (size + 1)

/-- Chunk list built by the page-range loop of
OptimizedDocumentParser._parse_pdf_lazy: page windows of step pages
with estimated character extents of 2000 characters per page.  A zero
step raises in the source (the constructor default is 10); the guard
makes that case return no chunks here. -/
def buildPdfChunksAux (step totalPages : Nat) : Nat → Nat → Nat → Nat → List DocumentChunk
  | _, _, _, 0 => []
  | pstart, curChar, cid, fuel + 1 =>
    if pstart < totalPages ∧ 0 < step then
      let pend := min (pstart + step) totalPages
      let est := (pend - pstart) * 2000
      ⟨cid, pstart, pend, curChar, curChar + est⟩ ::
        buildPdfChunksAux step totalPages (pstart + step) (curChar + est) (cid + 1) fuel
    else []

/-- Chunk list of a lazily parsed PDF; the fuel (one more than the page
count, never exhausted since every chunk advances the page cursor)
keeps the recursion structural. -/
def buildPdfChunks (step totalPages pstart curChar cid : Nat) : List DocumentChunk :=
  buildPdfChunksAux step totalPages pstart curChar cid (totalPages + 1)

/-- Cursor recursion of the page-range loop of _parse_pdf_lazy. -/
def pdfTotalCharsAux (step totalPages : Nat) : Nat → Nat → Nat → Nat
  | _, curChar, 0 => curChar
  | pstart, curChar, fuel + 1 =>
    if pstart < totalPages ∧ 0 < step then
      let pend := min (pstart + step) totalPages
      pdfTotalCharsAux step totalPages (pstart + step)
        (curChar + (pend - pstart) * 2000) fuel
    else curChar

/-- Final character cursor of the page-range loop of _parse_pdf_lazy,
the estimated total character count recorded in the index. -/
def pdfTotalCharsFrom (step totalPages pstart curChar : Nat) : Nat :=
  pdfTotalCharsAux step totalPages pstart curChar (totalPages + 1)

/-- Translation of OptimizedDocumentParser._load_text_chunk: seek to
the start offset and read the extent of the chunk (for the modelled
ASCII text files a byte offset is a character offset). -/
def load_text_chunk (file : List Char) (c : DocumentChunk) : List Char :=
  listSlice file c.char_start c.char_end

/-- Translation of OptimizedDocumentParser._load_pdf_chunk: extract the
pages of the chunk window that exist and join them with newlines. -/
def load_pdf_chunk (pages : List (List Char)) (c : DocumentChunk) : List Char :=
  List.intercalate (['\n']) ((pages.drop c.page_start).take (c.page_end - c.page_start))

/-- Eager PDF text of DocumentParser._parse_pdf: all pages joined with
newlines. -/
def eagerPdfText (pages : List (List Char)) : List Char :=
  List.intercalate (['\n']) pages

/-- Translation of OptimizedDocumentParser.get_text_at_position on a
lazily chunked document: every chunk whose extent meets the requested
range contributes the slice of its loaded content lying inside the
range, in chunk order. -/
def get_text_at_position (chunks : List DocumentChunk)
    (load : DocumentChunk → List Char) (start_pos end_pos : Nat) : List Char :=
  chunks.flatMap fun c =>
    if c.char_end ≤ start_pos ∨ end_pos ≤ c.char_start then []
    else
      let content := load c
      let a := start_pos - c.char_start
      let b := min content.length (end_pos - c.char_start)
      if a < b then (content.drop a).take (b - a) else []

/-- All occurrence positions of a needle at or after a start position,
the while loop around the find method in search_in_document; successive
starts increase, so a fuel of the text length plus one is enough. -/
def findAllAux (needle hay : List Char) : Nat → Nat → List Nat
  | _, 0 => []
  | s, fuel + 1 =>
    match findFrom needle hay s with
    | some p => p :: findAllAux needle hay (p + 1) fuel
    | none => []

/-- All occurrence positions of a needle in a haystack, in increasing
order (overlapping occurrences included, as the source restarts the
find one character after each hit). -/
def findAllPositions (needle hay : List Char) : List Nat :=
  findAllAux needle hay 0 (hay.length + 1)

/-- Translation of the search-result dictionaries of
search_in_document. -/
structure SearchResult where
  position : Nat
  context : List Char
  chunk_id : Nat
deriving DecidableEq

/-- Per-chunk results of search_in_document: each local occurrence is
reported at the global position given by the chunk start offset plus
the local offset, with a fifty-character context window of the loaded
content. -/
def searchChunkResults (load : DocumentChunk → List Char) (term : List Char)
    (c : DocumentChunk) : List SearchResult :=
  let content := load c
  (findAllPositions term content).map fun p =>
    { position := c.char_start + p,
      context := listSlice content (p - 50) (min content.length (p + term.length + 50)),
      chunk_id := c.chunk_id }

/-- Translation of the chunk loop of
OptimizedDocumentParser.search_in_document on a lazy document. -/
def search_in_document (chunks : List DocumentChunk)
    (load : DocumentChunk → List Char) (term : List Char) : List SearchResult :=
  match chunks with
  | [] => []
  | c :: rest => searchChunkResults load term c ++ search_in_document rest load term

/-- Error marker produced by the exception handler of
OptimizedDocumentParser.load_chunk when materialising a chunk fails. -/
def loadErrorMarker (cid : Nat) (msg : List Char) : List Char :=
  ("Error loading chunk ").toList ++ (toString cid).toList ++ (": ").toList ++ msg

/-- Translation of the try block of OptimizedDocumentParser.load_chunk:
a failed underlying read (I/O or decode failure, modelled as the error
case) is caught and replaced by the inline error marker, so the loader
is total and a scan continues with the next chunk. -/
def load_chunk_result (reads : Nat → Except (List Char) (List Char))
    (c : DocumentChunk) : List Char :=
  match reads c.chunk_id with
  | Except.ok content => content
  | Except.error msg => loadErrorMarker c.chunk_id msg

/-- Translation of AnswerExtractor._extract_from_chunk (duplicated
verbatim in OptimizedAnswerExtractor): run the engine on the chunk
content and shift every candidate by the chunk offset. -/
def extract_from_chunk (cfg : ExtractorConfig) (content : List Char)
    (methods : List String) (char_offset : Nat) : List AnswerCandidate :=
  (extract_answers cfg content methods).map fun c =>
    { c with start_pos := c.start_pos + char_offset,
             end_pos := c.end_pos + char_offset }

/-- Cooperative cancellation is modelled by a schedule giving the value
of the stop flag at each successive read; n counts the reads performed
so far.  The method loop of _extract_from_lazy_document reads the flag
once per method and breaks on a set flag or on reaching the candidate
cap; each kept batch is truncated to the per-chunk cap. -/
def lazyMethodLoop (cfg : ExtractorConfig) (maxCandidates maxPerChunk : Nat)
    (stopFlag : Nat → Bool) (content : List Char) (char_start : Nat) :
    List String → List AnswerCandidate → Nat → List AnswerCandidate × Nat
  | [], acc, n => (acc, n)
  | method :: rest, acc, n =>
    if stopFlag n ∨ maxCandidates ≤ acc.length then (acc, n + 1)
    else
      let cands := (extract_from_chunk cfg content [method] char_start).take maxPerChunk
      lazyMethodLoop cfg maxCandidates maxPerChunk stopFlag content char_start
        rest (acc ++ cands) (n + 1)

/-- Chunk loop of _extract_from_lazy_document, returning the raw
candidate pool: the flag is read once at each chunk head; past the
first chunk, when candidates exist, the trailing overlap of the cached
content of the previous chunk (always loaded at that point) is
prepended to the current content before extraction, while offsets are
still shifted by the unspliced chunk start. -/
def lazyChunkAcc (cfg : ExtractorConfig) (methods : List String)
    (maxCandidates maxPerChunk overlap : Nat) (stopFlag : Nat → Bool)
    (load : DocumentChunk → List Char) :
    List DocumentChunk → Nat → Option (List Char) → List AnswerCandidate → Nat →
      List AnswerCandidate × Nat
  | [], _, _, acc, n => (acc, n)
  | c :: rest, idx, prevContent, acc, n =>
    if stopFlag n then (acc, n + 1)
    else if maxCandidates ≤ acc.length then (acc, n + 1)
    else
      let content := load c
      let spliced :=
        match prevContent with
        | some pc =>
          if 0 < idx ∧ 0 < acc.length then pc.drop (pc.length - overlap) ++ content
          else content
        | none => content
      let step := lazyMethodLoop cfg maxCandidates maxPerChunk stopFlag spliced
        c.char_start methods acc (n + 1)
      lazyChunkAcc cfg methods maxCandidates maxPerChunk overlap stopFlag load
        rest (idx + 1) (some content) step.1 step.2

/-- Translation of _extract_from_lazy_document as one recursion: on
every exit of the chunk loop (exhaustion, stop flag, candidate cap) the
pooled candidates go through the final deduplication and filtering
passes of the source (no ranking pass runs on the pool). -/
def extractLazyGo (cfg : ExtractorConfig) (methods : List String)
    (maxCandidates maxPerChunk overlap : Nat) (stopFlag : Nat → Bool)
    (load : DocumentChunk → List Char) :
    List DocumentChunk → Nat → Option (List Char) → List AnswerCandidate → Nat →
      List AnswerCandidate
  | [], _, _, acc, _ => filter_candidates cfg (deduplicate_candidates acc)
  | c :: rest, idx, prevContent, acc, n =>
    if stopFlag n then filter_candidates cfg (deduplicate_candidates acc)
    else if maxCandidates ≤ acc.length then
      filter_candidates cfg (deduplicate_candidates acc)
    else
      let content := load c
      let spliced :=
        match prevContent with
        | some pc =>
          if 0 < idx ∧ 0 < acc.length then pc.drop (pc.length - overlap) ++ content
          else content
        | none => content
      let step := lazyMethodLoop cfg maxCandidates maxPerChunk stopFlag spliced
        c.char_start methods acc (n + 1)
      extractLazyGo cfg methods maxCandidates maxPerChunk overlap stopFlag load
        rest (idx + 1) (some content) step.1 step.2

/-- Translation of AnswerExtractor._extract_from_lazy_document (the
identical code also lives in OptimizedAnswerExtractor).  The chunk
loader is the one of OptimizedDocumentParser.load_chunk, the only
load_chunk in the repository (the extractor instantiates its doc_parser
attribute with the plain DocumentParser, which lacks the method; the
model wires the loader the call plainly intends). -/
def extract_from_lazy_document (cfg : ExtractorConfig) (methods : List String)
    (maxCandidates maxPerChunk overlap : Nat) (stopFlag : Nat → Bool)
    (load : DocumentChunk → List Char) (chunks : List DocumentChunk) :
    List AnswerCandidate :=
  extractLazyGo cfg methods maxCandidates maxPerChunk overlap stopFlag load
    chunks 0 none [] 0

/-- Translation of AnswerExtractor.extract_answers_optimized on a
document with lazy content, instantiated to a lazily chunked text file:
the lazy extraction result truncated to the candidate cap. -/
def extract_answers_optimized_text (cfg : ExtractorConfig) (methods : List String)
    (maxCandidates maxPerChunk overlap : Nat) (stopFlag : Nat → Bool)
    (file : List Char) (maxChars : Nat) : List AnswerCandidate :=
  (extract_from_lazy_document cfg methods maxCandidates maxPerChunk overlap stopFlag
    (load_text_chunk file) (buildTextChunks maxChars file.length 0 0)).take maxCandidates

/-- Delivery step of the worker of
OptimizedAnswerExtractor.extract_answers_threaded: the completion
callback receives the result only when the stop flag is clear at the
final check. -/
def optimized_threaded_completion (stop_at_check : Bool)
    (result : List AnswerCandidate) : Option (List AnswerCandidate) :=
  if stop_at_check then none else some result

/-- Delivery step of the worker of
AnswerExtractor.extract_answers_threaded: the completion callback
receives the result unconditionally. -/
def answer_extractor_threaded_completion (result : List AnswerCandidate) :
    Option (List AnswerCandidate) :=
  some result

/-- Spec-side restatement of the sentence score as one arithmetic
expression: base 0.5, the length-band bonus, one bonus per content
check, the question penalty, the comma bonus, clamped at 1; the
rejection for sentences under the minimum length applies only when the
length-band branch was not taken. -/
def sentence_score_spec (min_answer_length : Nat) (s : List Char) : ℚ :=
  if s.length < min_answer_length ∧ ¬(50 ≤ s.length ∧ s.length ≤ 200) then 0
  else
    min (1/2 + (if 50 ≤ s.length ∧ s.length ≤ 200 then 1/5 else 0)
      + (if containsAnyWord modalWords (lowerStr s) then 1/10 else 0)
      + (if containsAnyWord causalWords (lowerStr s) then 1/10 else 0)
      + (if containsAnyWord discourseWords (lowerStr s) then 1/10 else 0)
      - (if (stripChars s).getLast? = some '?' then 3/10 else 0)
      + (if 3 < s.count ',' then 1/10 else 0)) 1

/-- First sentence of the two-chunk lazy text document exercising the
overlap splice (27 characters, so the first chunk of 28 characters is
the sentence and its trailing space). -/
def s1C1 : String := "The cat is on the warm mat."

/-- Second sentence of the two-chunk lazy text document (26
characters, the whole second chunk). -/
def s2C1 : String := "A dog is in the big house."

/-- Contents of the two-chunk lazy text document: 54 characters split
into chunks of 28 at character 28. -/
def fileC1 : List Char := s1C1.toList ++ [' '] ++ s2C1.toList

/-- First sentence of the cancellation document (no modal word, so its
score stays at the 0.5 base). -/
def t1C4 : String := "The weather changed a lot today."

/-- Second sentence of the cancellation document (scores 0.6 through
the modal-word bonus). -/
def t2C4 : String := "The cat is on the warm mat."

/-- Contents of the cancellation document: the first chunk of 60
characters holds both sentences, the second chunk only filler that a
cancelled run never reaches. -/
def fileC4 : List Char :=
  t1C4.toList ++ [' '] ++ t2C4.toList ++ (" Unused filler text.").toList

/-- Stop-flag schedule of the cancellation scenario: the flag is
observed set from the third read on, which is the head poll of the
second chunk. -/
def stopC4 : Nat → Bool := fun n => decide (2 ≤ n)

/-- Page texts of the two-page PDF of the exactness counterexample. -/
def pagesC2 : List (List Char) := [['A'], ['B']]

/-- First candidate of the deduplication counterexample: span 0..50,
confidence 0.5. -/
def dedupA : AnswerCandidate :=
  { text := List.replicate 50 'a', start_pos := 0, end_pos := 50,
    confidence := 1/2, extraction_method := "sentences" }

/-- Second candidate of the deduplication counterexample: span 40..140,
confidence 0.9, overlapping the first by only a fifth of the shorter
length. -/
def dedupB : AnswerCandidate :=
  { text := List.replicate 100 'b', start_pos := 40, end_pos := 140,
    confidence := 9/10, extraction_method := "sentences" }

/-- Third candidate of the deduplication counterexample: span 42..50
inside both others, confidence 0.6; it evicts the first candidate and
stops comparing, leaving itself fully overlapped by the second. -/
def dedupC : AnswerCandidate :=
  { text := List.replicate 8 'c', start_pos := 42, end_pos := 50,
    confidence := 3/5, extraction_method := "sentences" }

/-- First chunk of the load-failure scenario: its read fails. -/
def chunkW0 : DocumentChunk := ⟨0, 0, 0, 0, 6⟩

/-- Second chunk of the load-failure scenario: its read succeeds and
the scan still reaches it. -/
def chunkW1 : DocumentChunk := ⟨1, 0, 0, 6, 12⟩

/-- Read outcomes of the load-failure scenario: chunk 0 raises, every
other chunk loads. -/
def readsC9 : Nat → Except (List Char) (List Char) := fun i =>
  if i = 0 then Except.error (("disk failure").toList)
  else Except.ok (("found here").toList)

/-- Contiguity invariant of a chunk list over the character range from
start to total: consecutive chunks meet exactly, the first chunk opens
the range, the last chunk closes it (an empty list forces an empty
range), and every chunk has a nonnegative extent. -/
def chunksContiguousFrom (cs : List DocumentChunk) (start total : Nat) : Prop :=
  List.Chain' (fun a b => a.char_end = b.char_start) cs ∧
  (∀ c, cs.head? = some c → c.char_start = start) ∧
  (cs.head? = none → start = total) ∧
  (∀ c, cs.getLast? = some c → c.char_end = total) ∧
  ∀ c ∈ cs, c.char_start ≤ c.char_end

/-! Helper lemmas shared by the claim theorems. -/

/-- Bound transfer through the final clamp of every scoring function. -/
theorem unitInterval_min (x : ℚ) (hx : 0 ≤ x) : 0 ≤ min x 1 ∧ min x 1 ≤ 1 :=
  ⟨le_min hx zero_le_one, min_le_right x 1⟩

/-- Bounds of a conditional bonus term. -/
theorem ite_between (c : Prop) [Decidable c] (q : ℚ) (hq : 0 ≤ q) :
    0 ≤ (if c then q else 0) ∧ (if c then q else 0) ≤ q := by
  split_ifs <;> simp [hq]

/-- C5.  The sentence score follows the spec formula only with the
corrected precedence: the rejection of sentences shorter than the
configured minimum applies only when the 50..200 length band was not
entered, since the band bonus branch is an elif chain in the source.
This theorem proves the amended formula exactly. -/
theorem c5_sentence_score_characterization (minLen : Nat) (s : List Char) :
    score_sentence minLen s = sentence_score_spec minLen s := by
  unfold score_sentence sentence_score_spec
  dsimp only
  by_cases hband : 50 ≤ s.length ∧ s.length ≤ 200
  · have hno : ¬(s.length < minLen ∧ ¬(50 ≤ s.length ∧ s.length ≤ 200)) := by tauto
    rw [if_pos hband, if_neg hno, if_pos hband]
  · rw [if_neg hband]
    by_cases hmin : s.length < minLen
    · rw [if_pos hmin, if_pos ⟨hmin, hband⟩]
    · have hno : ¬(s.length < minLen ∧ ¬(50 ≤ s.length ∧ s.length ≤ 200)) :=
        fun h => hmin h.1
      rw [if_neg hmin, if_neg hno, if_neg hband]
      congr 1
      ring

unseal Rat.add Rat.mul Rat.inv Rat.sub in
/-- C5 counterexample.  With the minimum answer length raised to 60, a
sentence of 55 characters is shorter than the minimum, yet its score is
0.7 (the 50..200 length band takes precedence over the rejection), not
the 0 the claim requires for every configured minimum. -/
theorem c5_band_shadows_min_length :
    (List.replicate 55 'a').length < 60 ∧
      score_sentence 60 (List.replicate 55 'a') = 7/10 ∧
      ¬score_sentence 60 (List.replicate 55 'a') = 0 := by
  decide

/-- C6.  Every strategy scoring function returns a confidence inside
the closed unit interval, for every input string and every configured
length bound. -/
theorem c6_scores_within_unit_interval :
    (∀ (minLen : Nat) (s : List Char),
      0 ≤ score_sentence minLen s ∧ score_sentence minLen s ≤ 1) ∧
    (∀ (maxLen : Nat) (p : List Char),
      0 ≤ score_paragraph maxLen p ∧ score_paragraph maxLen p ≤ 1) ∧
    (∀ s : List Char, 0 ≤ score_list_item s ∧ score_list_item s ≤ 1) ∧
    (∀ s : List Char, 0 ≤ score_definition s ∧ score_definition s ≤ 1) ∧
    (∀ s : List Char, 0 ≤ score_fact s ∧ score_fact s ≤ 1) ∧
    (∀ s : List Char, 0 ≤ score_procedure s ∧ score_procedure s ≤ 1) := by
  refine ⟨fun minLen s => ?_, fun maxLen p => ?_, fun s => ?_, fun s => ?_,
    fun s => ?_, fun s => ?_⟩
  · unfold score_sentence
    dsimp only
    have h1 := ite_between (containsAnyWord modalWords (lowerStr s) = true)
      (1/10) (by norm_num)
    have h2 := ite_between (containsAnyWord causalWords (lowerStr s) = true)
      (1/10) (by norm_num)
    have h3 := ite_between (containsAnyWord discourseWords (lowerStr s) = true)
      (1/10) (by norm_num)
    have h4 := ite_between ((stripChars s).getLast? = some '?') (3/10) (by norm_num)
    have h5 := ite_between (3 < s.count ',') (1/10) (by norm_num)
    by_cases hb : 50 ≤ s.length ∧ s.length ≤ 200
    · rw [if_pos hb]
      exact unitInterval_min _ (by linarith [h1.1, h2.1, h3.1, h4.2, h5.1])
    · rw [if_neg hb]
      by_cases hm : s.length < minLen
      · rw [if_pos hm]
        norm_num
      · rw [if_neg hm]
        exact unitInterval_min _ (by linarith [h1.1, h2.1, h3.1, h4.2, h5.1])
  · unfold score_paragraph
    dsimp only
    have h1 := ite_between
      (2 ≤ (splitOnRuns isEnderChar p).length ∧ (splitOnRuns isEnderChar p).length ≤ 5)
      (1/5) (by norm_num)
    have h2 := ite_between (p.count '\n' = 0) (1/10) (by norm_num)
    by_cases hb : 100 ≤ p.length ∧ p.length ≤ 400
    · rw [if_pos hb]
      exact unitInterval_min _ (by linarith [h1.1, h2.1])
    · rw [if_neg hb]
      by_cases hm : maxLen < p.length
      · rw [if_pos hm]
        norm_num
      · rw [if_neg hm]
        exact unitInterval_min _ (by linarith [h1.1, h2.1])
  · unfold score_list_item
    dsimp only
    have h1 := ite_between (30 ≤ s.length ∧ s.length ≤ 150) (1/5) (by norm_num)
    have h2 := ite_between
      ((("...").toList.isSuffixOf s || ([':']).isSuffixOf s) = true) (3/10) (by norm_num)
    exact unitInterval_min _ (by linarith [h1.1, h2.2])
  · unfold score_definition
    dsimp only
    have h1 := ite_between (40 ≤ s.length ∧ s.length ≤ 200) (1/10) (by norm_num)
    exact unitInterval_min _ (by linarith [h1.1])
  · unfold score_fact
    dsimp only
    have h1 := ite_between (30 ≤ s.length ∧ s.length ≤ 150) (1/10) (by norm_num)
    have h2 := ite_between (hasStat s = true) (1/10) (by norm_num)
    exact unitInterval_min _ (by linarith [h1.1, h2.1])
  · unfold score_procedure
    dsimp only
    have h1 := ite_between (40 ≤ s.length ∧ s.length ≤ 200) (1/5) (by norm_num)
    exact unitInterval_min _ (by linarith [h1.1])

unseal Rat.add Rat.mul Rat.inv Rat.sub in
/-- C1.  Evaluation of the lazy extraction at the two-chunk text
document fileC1 (chunks of 28 characters): the overlap splice prepends
the whole cached previous chunk to the second chunk's content, but the
candidate offsets are still shifted by the unspliced chunk start, so
both candidates found in the second chunk land 28 positions past their
true spans and their text differs from the document slice at their
recorded positions — the exactness property of the claim fails. -/
theorem c1_lazy_offset_mismatch :
    (extract_answers_optimized_text {} (["sentences"]) 5000 100 200
        (fun _ => false) fileC1 28).map (fun c => (c.text, c.start_pos, c.end_pos))
      = [(("The cat is on the warm mat").toList, 0, 26),
         (("The cat is on the warm mat").toList, 28, 54),
         (("A dog is in the big house.").toList, 56, 82)] ∧
    ¬listSlice fileC1 28 54 = ("The cat is on the warm mat").toList ∧
    ¬listSlice fileC1 56 82 = ("A dog is in the big house.").toList := by
  decide

unseal Rat.add Rat.mul Rat.inv Rat.sub in
/-- C4 counterexample.  A run of the lazy extraction over fileC4 that
the stop flag cancels at the head of the second chunk still returns the
candidates of the first chunk after deduplication and filtering, but in
ascending confidence order: the claimed confidence-descending rank pass
does not run over the pooled partial result. -/
theorem c4_cancelled_run_not_ranked :
    (extract_answers_optimized_text {} (["sentences"]) 5000 100 200 stopC4
        fileC4 60).map (fun c => c.confidence) = [1/2, 3/5] ∧
      ((1 : ℚ)/2 < 3/5) := by
  decide

/-- C2 counterexample.  On a lazily chunked two-page PDF (chunk ranges
are 2000-character stubs per page and the newline joining the chunks of
the eager parse is lost between chunks), reading the range 0..3 returns
a single character while the eager document text slice holds both pages
joined by a newline; the range is inside the recorded total character
count, so the exactness property fails on PDF indexes. -/
theorem c2_pdf_estimate_counterexample :
    ¬get_text_at_position (buildPdfChunks 1 2 0 0 0) (load_pdf_chunk pagesC2) 0 3
        = listSlice (eagerPdfText pagesC2) 0 3 ∧
      get_text_at_position (buildPdfChunks 1 2 0 0 0) (load_pdf_chunk pagesC2) 0 3
        = ['A'] ∧
      listSlice (eagerPdfText pagesC2) 0 3 = ("A\nB").toList ∧
      3 ≤ pdfTotalCharsFrom 1 2 0 0 := by
  decide

unseal Rat.add Rat.mul Rat.inv Rat.sub in
/-- C3 counterexample.  Deduplication of the three candidates dedupA,
dedupB, dedupC keeps dedupB and dedupC, which still overlap above the
0.7 threshold (the eviction of dedupA by dedupC stopped the scan before
dedupC was compared with dedupB), and a second pass removes one more
candidate: the step is not idempotent. -/
theorem c3_dedup_not_idempotent :
    deduplicate_candidates [dedupA, dedupB, dedupC] = [dedupB, dedupC] ∧
      overlapAboveThreshold dedupC dedupB = true ∧
      (deduplicate_candidates
        (deduplicate_candidates [dedupA, dedupB, dedupC])).length = 1 := by
  decide

/-- Length of a stable descending insertion. -/
theorem length_insertByConfDesc (c : AnswerCandidate) (l : List AnswerCandidate) :
    (insertByConfDesc c l).length = l.length + 1 := by
  induction l with
  | nil => rfl
  | cons x xs ih =>
    unfold insertByConfDesc
    split_ifs <;> simp_all [List.length_cons]

/-- The ranking sort keeps the number of candidates. -/
theorem length_sortByConfDesc (l : List AnswerCandidate) :
    (sortByConfDesc l).length = l.length := by
  induction l with
  | nil => rfl
  | cons x xs ih =>
    simp only [sortByConfDesc, List.foldr_cons] at ih ⊢
    rw [length_insertByConfDesc, ih, List.length_cons]

/-- A pointwise weaker filter keeps at least as many elements. -/
theorem length_filter_imp (p q : AnswerCandidate → Bool)
    (h : ∀ a, p a = true → q a = true) :
    ∀ l : List AnswerCandidate, (l.filter p).length ≤ (l.filter q).length
  | [] => le_refl _
  | x :: xs => by
    have ih := length_filter_imp p q h xs
    simp only [List.filter_cons]
    by_cases hp : p x = true
    · rw [if_pos hp, if_pos (h x hp)]
      simpa using ih
    · rw [if_neg hp]
      split_ifs with hq
      · exact le_trans ih (by simp)
      · exact ih

/-- C7.  Raising the configured minimum confidence from 0.3 to 0.9 with
all other settings unchanged never increases the number of candidates
returned by extract_answers, for every input text and method list: the
strategies and the deduplication never read the confidence threshold,
and the filter at 0.9 accepts a subset of what it accepts at 0.3. -/
theorem c7_min_confidence_monotone (minLen maxLen : Nat) (text : List Char)
    (methods : List String) :
    (extract_answers ⟨minLen, maxLen, 9/10⟩ text methods).length
      ≤ (extract_answers ⟨minLen, maxLen, 3/10⟩ text methods).length := by
  unfold extract_answers filter_candidates
  dsimp only
  rw [length_sortByConfDesc, length_sortByConfDesc]
  apply length_filter_imp
  intro a ha
  unfold passesFilters at ha ⊢
  dsimp only at ha ⊢
  simp only [Bool.and_eq_true, Bool.not_eq_true', decide_eq_false_iff_not] at ha ⊢
  obtain ⟨⟨⟨⟨h1, h2⟩, h3⟩, h4⟩, h5⟩ := ha
  exact ⟨⟨⟨⟨fun hlt => h1 (hlt.trans_le (by norm_num)), h2⟩, h3⟩, h4⟩, h5⟩

/-- Contiguity of the text chunk ranges built from any cursor. -/
theorem textChunksAux_contiguous (maxChars size : Nat) (hK : 0 < maxChars) :
    ∀ (fuel pos cid : Nat), pos ≤ size → size - pos < fuel →
      chunksContiguousFrom (buildTextChunksAux maxChars size pos cid fuel) pos size
  | 0, pos, cid, hle, hfuel => absurd hfuel (by omega)
  | fuel + 1, pos, cid, hle, hfuel => by
    unfold buildTextChunksAux
    by_cases hp : pos < size ∧ 0 < maxChars
    · rw [if_pos hp]
      dsimp only
      have he2 : min (pos + maxChars) size ≤ size := by omega
      obtain ⟨ihChain, ihHead, ihNil, ihLast, ihExt⟩ :=
        textChunksAux_contiguous maxChars size hK fuel (min (pos + maxChars) size)
          (cid + 1) he2 (by omega)
      refine ⟨?_, ?_, ?_, ?_, ?_⟩
      · rw [List.chain'_cons']
        refine ⟨?_, ihChain⟩
        intro b hb
        exact (ihHead b hb).symm
      · intro c hc
        simp only [List.head?_cons, Option.some.injEq] at hc
        rw [← hc]
      · intro hnone
        simp at hnone
      · intro c hc
        cases hrest : buildTextChunksAux maxChars size (min (pos + maxChars) size)
            (cid + 1) fuel with
        | nil =>
          rw [hrest] at hc
          simp only [List.getLast?_singleton, Option.some.injEq] at hc
          rw [← hc]
          exact (ihNil (by rw [hrest]; rfl)).symm ▸ rfl
        | cons d ds =>
          rw [hrest] at hc ihLast
          rw [List.getLast?_cons_cons] at hc
          exact ihLast c hc
      · intro c hc
        rcases List.mem_cons.mp hc with h | h
        · rw [h]
          dsimp only
          omega
        · exact ihExt c h
    · rw [if_neg hp]
      have hps : pos = size := by omega
      exact ⟨List.chain'_nil, fun c hc => by simp at hc, fun _ => hps,
        fun c hc => by simp at hc, fun c hc => by simp at hc⟩
/-- Contiguity of the PDF chunk ranges built from any cursor, with the
estimated total tracked by the same recursion. -/
theorem pdfChunksAux_contiguous (step totalPages : Nat) :
    ∀ (fuel pstart curChar cid : Nat),
      chunksContiguousFrom (buildPdfChunksAux step totalPages pstart curChar cid fuel)
        curChar (pdfTotalCharsAux step totalPages pstart curChar fuel)
  | 0, pstart, curChar, cid => by
    refine ⟨?_, ?_, ?_, ?_, ?_⟩ <;> simp [buildPdfChunksAux, pdfTotalCharsAux]
  | fuel + 1, pstart, curChar, cid => by
    unfold buildPdfChunksAux pdfTotalCharsAux
    by_cases hp : pstart < totalPages ∧ 0 < step
    · rw [if_pos hp, if_pos hp]
      dsimp only
      obtain ⟨ihChain, ihHead, ihNil, ihLast, ihExt⟩ :=
        pdfChunksAux_contiguous step totalPages fuel (pstart + step)
          (curChar + (min (pstart + step) totalPages - pstart) * 2000) (cid + 1)
      refine ⟨?_, ?_, ?_, ?_, ?_⟩
      · rw [List.chain'_cons']
        exact ⟨fun b hb => (ihHead b hb).symm, ihChain⟩
      · intro c hc
        simp only [List.head?_cons, Option.some.injEq] at hc
        rw [← hc]
      · intro hnone
        simp at hnone
      · intro c hc
        cases hrest : buildPdfChunksAux step totalPages (pstart + step)
            (curChar + (min (pstart + step) totalPages - pstart) * 2000) (cid + 1) fuel with
        | nil =>
          rw [hrest] at hc
          simp only [List.getLast?_singleton, Option.some.injEq] at hc
          rw [← hc]
          exact ihNil (by rw [hrest]; rfl)
        | cons d ds =>
          rw [hrest] at hc ihLast
          rw [List.getLast?_cons_cons] at hc
          exact ihLast c hc
      · intro c hc
        rcases List.mem_cons.mp hc with h | h
        · rw [h]
          dsimp only
          omega
        · exact ihExt c h
    · rw [if_neg hp, if_neg hp]
      exact ⟨List.chain'_nil, fun c hc => by simp at hc, fun _ => rfl,
        fun c hc => by simp at hc, fun c hc => by simp at hc⟩
/-- C8.  For both lazy index builders the chunk ranges are ordered and
contiguous: consecutive chunks meet exactly, the first chunk starts at
zero and the last chunk ends at the recorded total character count, so
the union of the ranges covers exactly that span with no gaps or
overlaps (for text files under any positive chunk size; for PDFs under
any page step, over the estimated extents the index records). -/
theorem c8_chunk_ranges_contiguous :
    (∀ maxChars size : Nat, 0 < maxChars →
      chunksContiguousFrom (buildTextChunks maxChars size 0 0) 0 size) ∧
    (∀ step totalPages : Nat,
      chunksContiguousFrom (buildPdfChunks step totalPages 0 0 0) 0
        (pdfTotalCharsFrom step totalPages 0 0)) := by
  constructor
  · intro maxChars size hK
    exact textChunksAux_contiguous maxChars size hK (size + 1) 0 0 (Nat.zero_le size) (by omega)
  · intro step totalPages
    exact pdfChunksAux_contiguous step totalPages (totalPages + 1) 0 0 0

/-- C8 witness: the invariant at a concrete text index (50000-character
chunks over 120000 characters) and a concrete PDF index (10-page steps
over 25 pages). -/
theorem c8_chunk_ranges_contiguous_witness :
    chunksContiguousFrom (buildTextChunks 50000 120000 0 0) 0 120000 ∧
      chunksContiguousFrom (buildPdfChunks 10 25 0 0 0) 0 (pdfTotalCharsFrom 10 25 0 0) :=
  ⟨c8_chunk_ranges_contiguous.1 50000 120000 (by decide),
   c8_chunk_ranges_contiguous.2 10 25⟩

/-- Symmetry of the overlap test. -/
theorem overlapAboveThreshold_comm (a b : AnswerCandidate) :
    overlapAboveThreshold a b = overlapAboveThreshold b a := by
  unfold overlapAboveThreshold
  dsimp only
  rw [Nat.min_comm a.end_pos, Nat.max_comm a.start_pos, Nat.min_comm a.text.length]
/-- Insertion by start position permutes. -/
theorem insertByStart_perm (c : AnswerCandidate) (l : List AnswerCandidate) :
    List.Perm (insertByStart c l) (c :: l) := by
  induction l with
  | nil => exact List.Perm.refl _
  | cons x xs ih =>
    unfold insertByStart
    split_ifs with h
    · exact (ih.cons x).trans (List.Perm.swap c x xs)
    · exact List.Perm.refl _
/-- The position sort is a permutation. -/
theorem sortByStart_perm (l : List AnswerCandidate) :
    List.Perm (sortByStart l) l := by
  induction l with
  | nil => exact List.Perm.refl _
  | cons x xs ih =>
    simp only [sortByStart, List.foldr_cons] at ih ⊢
    exact (insertByStart_perm x _).trans (ih.cons x)
/-- Accumulator loop of the deduplication on pairwise non-overlapping
input: every candidate passes the scan without a hit and is appended. -/
theorem foldl_dedupInsert_of_ok :
    ∀ (l acc : List AnswerCandidate),
      (∀ c ∈ l, ∀ e ∈ acc, overlapAboveThreshold c e = false) →
      List.Pairwise (fun a b => overlapAboveThreshold b a = false) l →
      l.foldl dedupInsert acc = acc ++ l
  | [], acc, _, _ => by simp
  | c :: rest, acc, hacc, hpw => by
    rw [List.foldl_cons]
    have hfind : acc.find? (fun e => overlapAboveThreshold c e) = none := by
      rw [List.find?_eq_none]
      intro e he
      simp [hacc c (by simp) e he]
    have hins : dedupInsert acc c = acc ++ [c] := by
      unfold dedupInsert
      rw [hfind]
    rw [hins]
    have hrec := foldl_dedupInsert_of_ok rest (acc ++ [c])
      (by
        intro c2 hc2 e he
        rcases List.mem_append.mp he with h1 | h1
        · exact hacc c2 (List.mem_cons_of_mem c hc2) e h1
        · rw [List.mem_singleton.mp h1]
          exact (List.pairwise_cons.mp hpw).1 c2 hc2)
      (List.pairwise_cons.mp hpw).2
    rw [hrec, List.append_assoc]
    rfl
/-- On a pairwise non-overlapping list the deduplication only sorts by
start position. -/
theorem dedup_of_pairwise (m : List AnswerCandidate)
    (h : List.Pairwise (fun a b => overlapAboveThreshold a b = false) m) :
    deduplicate_candidates m = sortByStart m := by
  unfold deduplicate_candidates
  have hsymm : Symmetric (fun a b : AnswerCandidate => overlapAboveThreshold a b = false) := by
    intro a b hab
    rw [overlapAboveThreshold_comm]
    exact hab
  have hpw : List.Pairwise (fun a b => overlapAboveThreshold a b = false) (sortByStart m) :=
    ((sortByStart_perm m).pairwise_iff (fun {a b} hab => hsymm hab)).mpr h
  have hpw2 : List.Pairwise (fun a b => overlapAboveThreshold b a = false) (sortByStart m) := by
    refine hpw.imp ?_
    intro a b hab
    rw [overlapAboveThreshold_comm]
    exact hab
  have := foldl_dedupInsert_of_ok (sortByStart m) [] (by intro c _ e he; simp at he) hpw2
  simpa using this
/-- C3.  Amended idempotence: whenever the deduplication output holds
no pair with overlap ratio above 0.7, a second pass returns the same
candidates (the same multiset, reordered at most by the stable position
sort).  The unconditional claim fails (see the counterexample): a
confidence replacement can leave an overlapping pair behind. -/
theorem c3_dedup_idempotent_of_no_overlap (l : List AnswerCandidate)
    (h : List.Pairwise (fun a b => overlapAboveThreshold a b = false)
      (deduplicate_candidates l)) :
    List.Perm (deduplicate_candidates (deduplicate_candidates l))
      (deduplicate_candidates l) := by
  rw [dedup_of_pairwise _ h]
  exact sortByStart_perm _
/-- C3 witness: the amended theorem applied to two concrete candidates
whose overlap stays below the threshold. -/
theorem c3_dedup_idempotent_witness :
    List.Perm (deduplicate_candidates (deduplicate_candidates [dedupA, dedupB]))
      (deduplicate_candidates [dedupA, dedupB]) :=
  c3_dedup_idempotent_of_no_overlap [dedupA, dedupB] (by decide)

/-- Every exit of the lazy chunk loop returns the filtered
deduplication of the accumulated pool of that run. -/
theorem extractLazyGo_eq (cfg : ExtractorConfig) (methods : List String)
    (maxC maxPer overlap : Nat) (stopFlag : Nat → Bool)
    (load : DocumentChunk → List Char) :
    ∀ (chunks : List DocumentChunk) (idx : Nat) (prev : Option (List Char))
      (acc : List AnswerCandidate) (n : Nat),
      extractLazyGo cfg methods maxC maxPer overlap stopFlag load chunks idx prev acc n
        = filter_candidates cfg (deduplicate_candidates
            (lazyChunkAcc cfg methods maxC maxPer overlap stopFlag load
              chunks idx prev acc n).1)
  | [], idx, prev, acc, n => rfl
  | c :: rest, idx, prev, acc, n => by
    unfold extractLazyGo lazyChunkAcc
    dsimp only
    split_ifs with h1 h2 h3
    · rfl
    · rfl
    · exact extractLazyGo_eq cfg methods maxC maxPer overlap stopFlag load rest
        (idx + 1) _ _ _
    · exact extractLazyGo_eq cfg methods maxC maxPer overlap stopFlag load rest
        (idx + 1) _ _ _
/-- C4.  Amended: for every document, method list and stop-flag
schedule (cancelled or not), the lazy extraction returns exactly the
deduplicate-then-filter passes applied over the candidates accumulated
before the loop exited; no confidence-ranking pass runs on that pool.
The threaded wrapper of AnswerExtractor always hands the result to the
completion callback, while the wrapper of OptimizedAnswerExtractor
suppresses the callback when the stop flag is set at its final check,
so a cancelled run there delivers nothing. -/
theorem c4_partial_pool_processed :
    (∀ (cfg : ExtractorConfig) (methods : List String) (maxC maxPer overlap : Nat)
      (stopFlag : Nat → Bool) (load : DocumentChunk → List Char)
      (chunks : List DocumentChunk),
      extract_from_lazy_document cfg methods maxC maxPer overlap stopFlag load chunks
        = filter_candidates cfg (deduplicate_candidates
            (lazyChunkAcc cfg methods maxC maxPer overlap stopFlag load
              chunks 0 none [] 0).1)) ∧
    (∀ res : List AnswerCandidate, optimized_threaded_completion true res = none) ∧
    (∀ res : List AnswerCandidate, answer_extractor_threaded_completion res = some res) := by
  refine ⟨?_, fun res => rfl, fun res => rfl⟩
  intro cfg methods maxC maxPer overlap stopFlag load chunks
  exact extractLazyGo_eq cfg methods maxC maxPer overlap stopFlag load chunks 0 none [] 0

/-- The chunk scan of the search distributes over list append. -/
theorem search_in_document_append (l1 l2 : List DocumentChunk)
    (load : DocumentChunk → List Char) (term : List Char) :
    search_in_document (l1 ++ l2) load term
      = search_in_document l1 load term ++ search_in_document l2 load term := by
  induction l1 with
  | nil => rfl
  | cons c cs ih => simp [search_in_document, ih, List.append_assoc]
/-- C9.  A failing chunk read never escapes load_chunk (the loader is a
total function whose value at a failing read is the inline error
marker), and the chunk-by-chunk search still processes every other
chunk: around a chunk whose read fails, the search result is exactly
the results of the preceding chunks, then the matches inside the
failing chunk's marker content, then the results of the following
chunks. -/
theorem c9_load_failure_isolated (pre post : List DocumentChunk) (c : DocumentChunk)
    (reads : Nat → Except (List Char) (List Char)) (term msg : List Char)
    (h : reads c.chunk_id = Except.error msg) :
    load_chunk_result reads c = loadErrorMarker c.chunk_id msg ∧
    search_in_document (pre ++ c :: post) (load_chunk_result reads) term
      = search_in_document pre (load_chunk_result reads) term
        ++ searchChunkResults (load_chunk_result reads) term c
        ++ search_in_document post (load_chunk_result reads) term := by
  constructor
  · unfold load_chunk_result
    rw [h]
  · rw [search_in_document_append]
    simp [search_in_document, List.append_assoc]
/-- C9 witness: the isolation theorem at a two-chunk document whose
first chunk read raises. -/
theorem c9_load_failure_isolated_witness :
    load_chunk_result readsC9 chunkW0 = loadErrorMarker 0 (("disk failure").toList) ∧
    search_in_document ([] ++ chunkW0 :: [chunkW1]) (load_chunk_result readsC9)
        (("here").toList)
      = search_in_document [] (load_chunk_result readsC9) (("here").toList)
        ++ searchChunkResults (load_chunk_result readsC9) (("here").toList) chunkW0
        ++ search_in_document [chunkW1] (load_chunk_result readsC9) (("here").toList) :=
  c9_load_failure_isolated [] [chunkW1] chunkW0 readsC9 (("here").toList) (("disk failure").toList) rfl

/-- Length of an in-range slice. -/
theorem length_listSlice (l : List Char) (s e : Nat) (h1 : s ≤ e) (h2 : e ≤ l.length) :
    (listSlice l s e).length = e - s := by
  simp only [listSlice, List.length_take, List.length_drop]
  omega
/-- Dropping into a slice advances its start. -/
theorem drop_listSlice (l : List Char) (s e a : Nat) :
    (listSlice l s e).drop a = listSlice l (s + a) e := by
  simp only [listSlice, List.drop_take, List.drop_drop]
  congr 1
  omega
/-- Taking from a slice clips its end. -/
theorem take_listSlice (l : List Char) (s e t : Nat) :
    (listSlice l s e).take t = listSlice l s (s + min t (e - s)) := by
  simp only [listSlice, List.take_take]
  congr 1
  omega
/-- Adjacent slices concatenate. -/
theorem listSlice_append_adjacent (l : List Char) (x y z : Nat) (h1 : x ≤ y) (h2 : y ≤ z) :
    listSlice l x y ++ listSlice l y z = listSlice l x z := by
  simp only [listSlice]
  rw [show z - x = (y - x) + (z - y) from by omega, List.take_add, List.drop_drop,
    show x + (y - x) = y from by omega]
/-- A slice over an empty range is empty. -/
theorem listSlice_of_ge (l : List Char) (s e : Nat) (h : e ≤ s) : listSlice l s e = [] := by
  simp [listSlice, Nat.sub_eq_zero_of_le h]
/-- Exactness of the ranged read over the chunk list built from any
cursor: the concatenated per-chunk contributions equal the document
slice of the requested range clipped to the remaining cover. -/
theorem getTextAux_exact (maxChars : Nat) (file : List Char) (s e : Nat)
    (hK : 0 < maxChars) (he : e ≤ file.length) :
    ∀ (fuel pos cid : Nat), pos ≤ file.length → file.length - pos < fuel →
      get_text_at_position (buildTextChunksAux maxChars file.length pos cid fuel)
          (load_text_chunk file) s e
        = listSlice file (max s pos) e
  | 0, pos, cid, hle, hfuel => absurd hfuel (by omega)
  | fuel + 1, pos, cid, hle, hfuel => by
    unfold buildTextChunksAux
    by_cases hp : pos < file.length ∧ 0 < maxChars
    · rw [if_pos hp]
      dsimp only
      have hm1 : pos < min (pos + maxChars) file.length := by omega
      have hm2 : min (pos + maxChars) file.length ≤ file.length := by omega
      have ih := getTextAux_exact maxChars file s e hK he fuel
        (min (pos + maxChars) file.length) (cid + 1) hm2 (by omega)
      unfold get_text_at_position at ih ⊢
      rw [List.flatMap_cons, ih]
      dsimp only [load_text_chunk]
      have hlen : (listSlice file pos (min (pos + maxChars) file.length)).length
          = min (pos + maxChars) file.length - pos :=
        length_listSlice file pos _ (by omega) hm2
      rw [hlen]
      split_ifs with hskip hab
      · rw [List.nil_append]
        rcases hskip with hs | hs
        · rw [show max s (min (pos + maxChars) file.length) = max s pos from by omega]
        · rw [listSlice_of_ge file (max s (min (pos + maxChars) file.length)) e
              (by omega),
            listSlice_of_ge file (max s pos) e (by omega)]
      · rw [drop_listSlice, take_listSlice,
          show pos + (s - pos) = max s pos from by omega]
        by_cases hme : min (pos + maxChars) file.length < e
        · rw [show max s pos
              + min (min (min (pos + maxChars) file.length - pos) (e - pos) - (s - pos))
                  (min (pos + maxChars) file.length - max s pos)
              = min (pos + maxChars) file.length from by omega]
          rw [show max s (min (pos + maxChars) file.length)
              = min (pos + maxChars) file.length from by omega]
          exact listSlice_append_adjacent file _ _ _ (by omega) (by omega)
        · rw [show max s pos
              + min (min (min (pos + maxChars) file.length - pos) (e - pos) - (s - pos))
                  (min (pos + maxChars) file.length - max s pos)
              = e from by omega]
          rw [listSlice_of_ge file (max s (min (pos + maxChars) file.length)) e
            (by omega), List.append_nil]
      · rw [List.nil_append,
          listSlice_of_ge file (max s (min (pos + maxChars) file.length)) e (by omega),
          listSlice_of_ge file (max s pos) e (by omega)]
    · rw [if_neg hp]
      have hps : pos = file.length := by
        rcases Nat.lt_or_ge pos file.length with h | h
        · exact absurd ⟨h, hK⟩ hp
        · omega
      unfold get_text_at_position
      rw [List.flatMap_nil, listSlice_of_ge file (max s pos) e (by omega)]
/-- C2.  Amended exactness: on a lazily chunked text document (exact
character-based chunk ranges), get_text_at_position returns exactly the
eager document slice for every in-range request, including ranges that
straddle chunk boundaries.  On PDF indexes the property fails (see the
counterexample), since their chunk ranges are estimates. -/
theorem c2_text_get_text_exact (maxChars : Nat) (file : List Char) (s e : Nat)
    (hK : 0 < maxChars) (hse : s ≤ e) (he : e ≤ file.length) :
    get_text_at_position (buildTextChunks maxChars file.length 0 0)
        (load_text_chunk file) s e
      = listSlice file s e := by
  have := getTextAux_exact maxChars file s e hK he (file.length + 1) 0 0
    (Nat.zero_le _) (by omega)
  simpa [buildTextChunks] using this

/-- C2 witness: the amended theorem at an eight-character file chunked
in fours, reading a range that straddles the chunk boundary. -/
theorem c2_text_get_text_exact_witness :
    get_text_at_position (buildTextChunks 4 (("abcdefgh").toList).length 0 0)
        (load_text_chunk (("abcdefgh").toList)) 2 6
      = listSlice (("abcdefgh").toList) 2 6 :=
  c2_text_get_text_exact 4 (("abcdefgh").toList) 2 6 (by decide) (by decide) (by decide)

/-- A successful find scan returns the least in-range occurrence at or
after the start cursor. -/
theorem findFromAux_some (needle hay : List Char) :
    ∀ (fuel s p : Nat), findFromAux needle hay s fuel = some p →
      s ≤ p ∧ p ≤ hay.length ∧ needle.isPrefixOf (hay.drop p) = true ∧
        ∀ r, s ≤ r → r < p → ¬needle.isPrefixOf (hay.drop r) = true
  | 0, s, p, h => by simp [findFromAux] at h
  | fuel + 1, s, p, h => by
    unfold findFromAux at h
    split_ifs at h with h1 h2
    · obtain rfl : s = p := by simpa using h
      exact ⟨le_refl s, h1, h2, fun r hr1 hr2 => by omega⟩
    · obtain ⟨ha, hb, hc, hd⟩ := findFromAux_some needle hay fuel (s + 1) p h
      refine ⟨by omega, hb, hc, ?_⟩
      intro r hr1 hr2
      rcases eq_or_lt_of_le hr1 with rfl | hlt
      · exact h2
      · exact hd r (by omega) hr2
/-- A failed find scan with sufficient fuel means no in-range
occurrence at or after the start cursor. -/
theorem findFromAux_none (needle hay : List Char) :
    ∀ (fuel s : Nat), hay.length + 1 - s ≤ fuel → findFromAux needle hay s fuel = none →
      ∀ q, s ≤ q → q ≤ hay.length → ¬needle.isPrefixOf (hay.drop q) = true
  | 0, s, hfuel, h => fun q hq1 hq2 _ => by omega
  | fuel + 1, s, hfuel, h => by
    unfold findFromAux at h
    split_ifs at h with h1 h2
    · intro q hq1 hq2 hpre
      rcases eq_or_lt_of_le hq1 with rfl | hlt
      · exact h2 hpre
      · exact findFromAux_none needle hay fuel (s + 1) (by omega) h q (by omega) hq2 hpre
    · intro q hq1 hq2 _
      omega
/-- Membership in the occurrence loop with sufficient fuel is exactly
being an in-range occurrence at or after the start cursor. -/
theorem findAllAux_mem (needle hay : List Char) :
    ∀ (fuel s p : Nat), hay.length + 1 - s ≤ fuel →
      (p ∈ findAllAux needle hay s fuel ↔
        s ≤ p ∧ p ≤ hay.length ∧ needle.isPrefixOf (hay.drop p) = true)
  | 0, s, p, hfuel => by
    constructor
    · intro h
      simp [findAllAux] at h
    · rintro ⟨h1, h2, _⟩
      omega
  | fuel + 1, s, p, hfuel => by
    unfold findAllAux
    cases hf : findFrom needle hay s with
    | none =>
      have hn := findFromAux_none needle hay (hay.length + 1) s (by omega) hf
      simp only [List.not_mem_nil, false_iff]
      rintro ⟨h1, h2, h3⟩
      exact hn p h1 h2 h3
    | some q =>
      obtain ⟨ha, hb, hc, hd⟩ := findFromAux_some needle hay (hay.length + 1) s q hf
      have ih := findAllAux_mem needle hay fuel (q + 1) p (by omega)
      simp only [List.mem_cons, ih]
      constructor
      · rintro (rfl | ⟨h1, h2, h3⟩)
        · exact ⟨ha, hb, hc⟩
        · exact ⟨by omega, h2, h3⟩
      · rintro ⟨h1, h2, h3⟩
        rcases lt_trichotomy p q with hlt | rfl | hgt
        · exact absurd h3 (hd p h1 hlt)
        · exact Or.inl rfl
        · exact Or.inr ⟨by omega, h2, h3⟩
/-- The position list of the search loop holds exactly the occurrence
positions of the needle. -/
theorem findAllPositions_mem (needle hay : List Char) (p : Nat) :
    p ∈ findAllPositions needle hay ↔
      p ≤ hay.length ∧ needle.isPrefixOf (hay.drop p) = true := by
  have := findAllAux_mem needle hay (hay.length + 1) 0 p (by omega)
  simpa [findAllPositions] using this
/-- A global position is reported by the chunk-by-chunk search exactly
when some chunk has a local occurrence at the corresponding offset of
its loaded content. -/
theorem search_positions_mem (chunks : List DocumentChunk)
    (load : DocumentChunk → List Char) (term : List Char) (g : Nat) :
    g ∈ (search_in_document chunks load term).map SearchResult.position ↔
      ∃ c ∈ chunks, ∃ p, p ∈ findAllPositions term (load c) ∧ g = c.char_start + p := by
  induction chunks with
  | nil => simp [search_in_document]
  | cons c cs ih =>
    simp only [search_in_document, List.map_append, List.mem_append, ih,
      searchChunkResults, List.map_map, List.mem_map, Function.comp, List.mem_cons]
    constructor
    · rintro (⟨p, hp, rfl⟩ | ⟨d, hd, p, hp, rfl⟩)
      · exact ⟨c, Or.inl rfl, p, hp, rfl⟩
      · exact ⟨d, Or.inr hd, p, hp, rfl⟩
    · rintro ⟨d, rfl | hmem, p, hp, rfl⟩
      · exact Or.inl ⟨p, hp, rfl⟩
      · exact Or.inr ⟨d, hmem, p, hp, rfl⟩
/-- Every chunk built from a cursor lies between the cursor and the
file size, with a positive extent. -/
theorem textChunksAux_mem_bounds (maxChars size : Nat) :
    ∀ (fuel pos cid : Nat) (c : DocumentChunk),
      c ∈ buildTextChunksAux maxChars size pos cid fuel →
      pos ≤ c.char_start ∧ c.char_start < c.char_end ∧ c.char_end ≤ size
  | 0, pos, cid, c, h => by simp [buildTextChunksAux] at h
  | fuel + 1, pos, cid, c, h => by
    unfold buildTextChunksAux at h
    split_ifs at h with hp
    · rcases List.mem_cons.mp h with rfl | hmem
      · dsimp only
        omega
      · have := textChunksAux_mem_bounds maxChars size fuel
          (min (pos + maxChars) size) (cid + 1) c hmem
        omega
    · simp at h
/-- C10.  On a lazily chunked text document, search_in_document reports
a global position exactly when the search term occurs there lying
entirely inside a single chunk's range (reported at the chunk start
plus the local offset); in particular an occurrence that straddles a
chunk boundary, being inside no single chunk, is never reported. -/
theorem c10_search_reports_within_chunk_occurrences (maxChars : Nat)
    (file term : List Char) (g : Nat) :
    (g ∈ (search_in_document (buildTextChunks maxChars file.length 0 0)
        (load_text_chunk file) term).map SearchResult.position)
      ↔ ∃ c ∈ buildTextChunks maxChars file.length 0 0,
          c.char_start ≤ g ∧ g + term.length ≤ c.char_end ∧
            listSlice file g (g + term.length) = term := by
  rw [search_positions_mem]
  constructor
  · rintro ⟨c, hc, p, hp, rfl⟩
    have hb := textChunksAux_mem_bounds maxChars file.length (file.length + 1) 0 0 c
      (by simpa [buildTextChunks] using hc)
    obtain ⟨hp1, hp2⟩ := (findAllPositions_mem term (load_text_chunk file c) p).mp hp
    have hlen : (load_text_chunk file c).length = c.char_end - c.char_start := by
      unfold load_text_chunk
      exact length_listSlice file _ _ (by omega) (by omega)
    have hpre := List.isPrefixOf_iff_prefix.mp hp2
    have hlen2 : term.length ≤ (load_text_chunk file c).length - p := by
      have hll := hpre.length_le
      simpa [List.length_drop] using hll
    refine ⟨c, hc, by omega, by omega, ?_⟩
    have hdrop : (load_text_chunk file c).drop p
        = listSlice file (c.char_start + p) c.char_end := by
      unfold load_text_chunk
      exact drop_listSlice file _ _ p
    have htake : ((load_text_chunk file c).drop p).take term.length
        = listSlice file (c.char_start + p) (c.char_start + p + term.length) := by
      rw [hdrop, take_listSlice]
      congr 1
      omega
    rw [← htake]
    exact (List.prefix_iff_eq_take.mp hpre).symm
  · rintro ⟨c, hc, h1, h2, h3⟩
    have hb := textChunksAux_mem_bounds maxChars file.length (file.length + 1) 0 0 c
      (by simpa [buildTextChunks] using hc)
    refine ⟨c, hc, g - c.char_start, ?_, by omega⟩
    rw [findAllPositions_mem term (load_text_chunk file c) (g - c.char_start)]
    have hlen : (load_text_chunk file c).length = c.char_end - c.char_start := by
      unfold load_text_chunk
      exact length_listSlice file _ _ (by omega) (by omega)
    refine ⟨by omega, ?_⟩
    apply List.isPrefixOf_iff_prefix.mpr
    apply List.prefix_iff_eq_take.mpr
    have hdrop : (load_text_chunk file c).drop (g - c.char_start)
        = listSlice file g c.char_end := by
      unfold load_text_chunk
      rw [drop_listSlice]
      congr 1
      omega
    rw [hdrop, take_listSlice,
      show g + min term.length (c.char_end - g) = g + term.length from by omega]
    exact h3.symm

end LDK
